import Mathlib

/-!
Verification of the aestar write path (aestar/aestar.py).

The Python source is shallowly embedded: bytes are natural numbers, byte
strings are lists, the stateful file objects become structures with explicit
state passing, and fallible operations return `Except` or `Option`.  The
external cryptographic primitives (the AES block function of pycryptodome and
SHA-256 of hashlib) are not code of this repository; they enter as explicit
function parameters, and every theorem holds for all instantiations.  CBC
mode itself is modelled concretely, because the per-sector independence of
the stream is exactly about how the source drives CBC.
-/

namespace Aestar

/-- A byte, modelled as a natural number (0..255 in practice). -/
abbrev Byte := Nat

/-- Sector size in bytes (`AESFile.SECTOR_SIZE`). -/
def SECTOR_SIZE : Nat := 512

/-- Little-endian encoding of `n` on `len` bytes, as in
`n.to_bytes(len, byteorder=..little..)`. -/
def leBytes (n len : Nat) : List Byte :=
  (List.range len).map (fun i => n / 256 ^ i % 256)

/-- Bytewise xor of two byte strings (CBC whitening step). -/
def xorBytes (a b : List Byte) : List Byte :=
  List.zipWith (fun x y => Nat.xor x y) a b

/-- Split a byte string into consecutive chunks of `k+1` bytes; the fuel
argument bounds the recursion and is irrelevant as soon as it reaches the
length of the list. -/
def chunksOfFuel (k : Nat) : Nat → List Byte → List (List Byte)
  | 0, _ => []
  | _, [] => []
  | fuel + 1, l@(_ :: _) => l.take (k + 1) :: chunksOfFuel k fuel (l.drop (k + 1))

/-- Split a byte string into consecutive chunks of `k+1` bytes. -/
def chunksOf (k : Nat) (l : List Byte) : List (List Byte) :=
  chunksOfFuel k l.length l

theorem chunksOfFuel_fuel (k : Nat) :
    ∀ fuel l, (l : List Byte).length ≤ fuel → chunksOfFuel k fuel l = chunksOf k l := by
  intro fuel
  induction fuel using Nat.strong_induction_on with
  | _ fuel ih =>
    intro l hl
    match fuel, l with
    | 0, [] => rfl
    | 0, x :: xs => simp at hl
    | f + 1, [] =>
      simp [chunksOfFuel, chunksOf]
    | f + 1, x :: xs =>
      have hdrop : ((x :: xs).drop (k + 1)).length ≤ f := by
        simp only [List.length_drop, List.length_cons]
        simp only [List.length_cons] at hl
        omega
      have hdrop2 : ((x :: xs).drop (k + 1)).length ≤ xs.length := by
        simp only [List.length_drop, List.length_cons]
        omega
      have hxs : xs.length ≤ f := by
        simp only [List.length_cons] at hl
        omega
      simp only [chunksOfFuel]
      rw [chunksOf]
      simp only [List.length_cons, chunksOfFuel]
      rw [ih f (by omega) _ hdrop, ih xs.length (by omega) _ hdrop2]

/-- Unfolding rule for `chunksOf` on a non-empty list. -/
theorem chunksOf_cons (k : Nat) (x : Byte) (xs : List Byte) :
    chunksOf k (x :: xs) = (x :: xs).take (k + 1) :: chunksOf k ((x :: xs).drop (k + 1)) := by
  rw [chunksOf]
  simp only [List.length_cons, chunksOfFuel]
  rw [chunksOfFuel_fuel]
  simp only [List.length_drop, List.length_cons]
  omega

@[simp]
theorem chunksOf_nil (k : Nat) : chunksOf k [] = [] := rfl

/-- CBC encryption of a list of blocks with keyed block function `E`,
starting from chain value `iv`: each ciphertext block is
`E (prev xor plain)` and becomes the next chain value.  This is what a
pycryptodome `AES.new(key, AES.MODE_CBC, IV=iv)` object computes. -/
def cbcEncrypt (E : List Byte → List Byte) (iv : List Byte) : List (List Byte) → List (List Byte)
  | [] => []
  | p :: ps =>
    let c := E (xorBytes iv p)
    c :: cbcEncrypt E c ps

/-- Encryption of one 512-byte sector: a fresh CBC cipher with the given IV,
run over the 16-byte AES blocks of the sector.  `E key` is the keyed AES
block function. -/
def encryptSector (E : List Byte → List Byte → List Byte) (key iv data : List Byte) : List Byte :=
  (cbcEncrypt (E key) iv (chunksOf 15 data)).flatten

/-- State of an `AESFile` (the EncryptedSink).  `key` is set at construction
to the first 16 bytes of SHA-256 of the passphrase; `sector` and `bytes` are
the running sector index and plaintext byte counter.  The cipher object of
the source is regenerated per sector by `_get_cipher` from `self.sector`, so
it is fully determined by `sector` and carried implicitly.  The `bufsize`,
`sync` and `mode` settings and the underlying file handle only affect
buffering and I/O, never the emitted bytes, and are omitted. -/
structure AESFile where
  key : List Byte
  sector : Nat
  bytes : Nat
  pad : Bool
deriving Repr, DecidableEq

/-- Construction of an `AESFile` from a passphrase
(`self.key = hashlib.sha256(passphrase).digest()[:16]`, `sector = 0`,
`bytes = 0`).  `sha256` is the external hash, passed as a parameter. -/
def AESFile.init (sha256 : List Byte → List Byte) (passphrase : List Byte) (pad : Bool) : AESFile :=
  { key := (sha256 passphrase).take 16, sector := 0, bytes := 0, pad := pad }

/-- The IV of the cipher built by `_get_cipher` for sector `s`:
`s.to_bytes(16, byteorder=..little..)`. -/
def getCipherIV (s : Nat) : List Byte := leBytes s 16

/-- The per-sector encryption loop of `AESFile.write`: starting at sector `s`,
encrypt each 512-byte chunk with a cipher fresh for the current sector and
advance the sector (`_next_sector`).  Returns the final sector index and the
concatenated ciphertext pushed to the underlying file object. -/
def writeLoop (E : List Byte → List Byte → List Byte) (key : List Byte) :
    Nat → List (List Byte) → Nat × List Byte
  | s, [] => (s, [])
  | s, c :: cs =>
    let ct := encryptSector E key (getCipherIV s) c
    let r := writeLoop E key (s + 1) cs
    (r.1, ct ++ r.2)

/-- Zero padding of an unaligned buffer to the next sector boundary:
`buffer.ljust(len(buffer) + (512 - len(buffer) % 512), zero)`. -/
def padTo512 (buffer : List Byte) : List Byte :=
  buffer ++ List.replicate (SECTOR_SIZE - buffer.length % SECTOR_SIZE) 0

/-- `AESFile.write`.  Returns the new state, the ciphertext emitted to the
underlying medium, and the Python return value `len(buffer)`.  An unaligned
buffer with `pad` off raises before anything is encrypted or written. -/
def AESFile.write (E : List Byte → List Byte → List Byte) (f : AESFile) (buffer : List Byte) :
    Except String (AESFile × List Byte × Nat) :=
  if buffer.length % SECTOR_SIZE ≠ 0 then
    if f.pad = false then
      Except.error "Buffer Size has to be a multiple of 512 bytes"
    else
      let wb := padTo512 buffer
      let r := writeLoop E f.key f.sector (chunksOf 511 wb)
      Except.ok ({ f with sector := r.1, bytes := f.bytes + buffer.length }, r.2, buffer.length)
  else
    let r := writeLoop E f.key f.sector (chunksOf 511 buffer)
    Except.ok ({ f with sector := r.1, bytes := f.bytes + buffer.length }, r.2, buffer.length)

/-- `AESFile.tell`: the plaintext byte counter. -/
def AESFile.tell (f : AESFile) : Nat := f.bytes

/-- Run a sequence of `write` calls, collecting all ciphertext emitted to the
medium across the lifetime of the sink. -/
def AESFile.writeAll (E : List Byte → List Byte → List Byte) (f : AESFile) :
    List (List Byte) → Except String (AESFile × List Byte)
  | [] => Except.ok (f, [])
  | b :: bs =>
    match f.write E b with
    | Except.error e => Except.error e
    | Except.ok (f1, out, _) =>
      match f1.writeAll E bs with
      | Except.error e => Except.error e
      | Except.ok (f2, outs) => Except.ok (f2, out ++ outs)

/-- The aespipe single-key stream, written as in the specification: the
plaintext is split into consecutive 512-byte sectors; the sector at index
`n` (counted from `s`) is encrypted with AES-128-CBC with IV the 16-byte
little-endian encoding of its index, with a fresh CBC chain per sector. -/
def sectorStreamFrom (E : List Byte → List Byte → List Byte) (key : List Byte)
    (s : Nat) (plaintext : List Byte) : List Byte :=
  ((List.range (plaintext.length / SECTOR_SIZE)).map (fun n =>
    encryptSector E key (leBytes (s + n) 16)
      ((plaintext.drop (SECTOR_SIZE * n)).take SECTOR_SIZE))).flatten

/-- The byte stream the specification promises for a whole archive: sectors
counted from 0, key derived as the first 16 bytes of SHA-256 of the
passphrase. -/
def specAespipeEncrypt (E : List Byte → List Byte → List Byte)
    (sha256 : List Byte → List Byte) (passphrase plaintext : List Byte) : List Byte :=
  sectorStreamFrom E ((sha256 passphrase).take 16) 0 plaintext

theorem sectorStreamFrom_nil (E : List Byte → List Byte → List Byte) (key : List Byte)
    (s : Nat) : sectorStreamFrom E key s [] = [] := rfl

/-- Peeling one sector off the front of the specified stream. -/
theorem sectorStreamFrom_step (E : List Byte → List Byte → List Byte) (key : List Byte)
    (s : Nat) (l : List Byte) (hl : 512 ≤ l.length) :
    sectorStreamFrom E key s l =
      encryptSector E key (leBytes s 16) (l.take 512) ++
        sectorStreamFrom E key (s + 1) (l.drop 512) := by
  unfold sectorStreamFrom
  simp only [SECTOR_SIZE, List.length_drop]
  have hm : l.length / 512 = (l.length - 512) / 512 + 1 := by omega
  rw [hm, List.range_succ_eq_map]
  simp only [List.map_cons, List.flatten_cons, List.map_map, Nat.add_zero, Nat.mul_zero,
    List.drop_zero]
  congr 1
  apply congrArg
  apply List.map_congr_left
  intro a _
  simp only [Function.comp_apply, List.drop_drop]
  have h1 : s + Nat.succ a = s + 1 + a := by omega
  have h2 : 512 * Nat.succ a = 512 + 512 * a := by omega
  rw [h1, h2]

/-- The stateful sector loop of `AESFile.write` computes the specified
sector-indexed stream and leaves the sector index advanced by the number of
sectors written. -/
theorem writeLoop_chunksOf (E : List Byte → List Byte → List Byte) (key : List Byte) :
    ∀ l : List Byte, 512 ∣ l.length → ∀ s,
      writeLoop E key s (chunksOf 511 l) = (s + l.length / 512, sectorStreamFrom E key s l) := by
  have main : ∀ n (l : List Byte), l.length ≤ n → 512 ∣ l.length → ∀ s,
      writeLoop E key s (chunksOf 511 l) = (s + l.length / 512, sectorStreamFrom E key s l) := by
    intro n
    induction n with
    | zero =>
      intro l hl _ s
      have hnil : l = [] := List.eq_nil_of_length_eq_zero (Nat.le_zero.mp hl)
      subst hnil
      simp [chunksOf_nil, writeLoop, sectorStreamFrom_nil]
    | succ n ih =>
      intro l hl hdvd s
      match l with
      | [] => simp [chunksOf_nil, writeLoop, sectorStreamFrom_nil]
      | x :: xs =>
        have hlen : 512 ≤ (x :: xs).length := by
          rcases hdvd with ⟨c, hc⟩
          rcases c with _ | c
          · simp at hc
          · simp only [List.length_cons] at hc ⊢; omega
        have hdvd2 : 512 ∣ ((x :: xs).drop 512).length := by
          simp only [List.length_drop]
          rcases hdvd with ⟨c, hc⟩
          exact ⟨c - 1, by omega⟩
        have hshort : ((x :: xs).drop 512).length ≤ n := by
          simp only [List.length_drop, List.length_cons] at hl hlen ⊢
          omega
        rw [chunksOf_cons]
        simp only [writeLoop]
        rw [ih _ hshort hdvd2 (s + 1), sectorStreamFrom_step E key s _ hlen]
        dsimp only
        rw [List.length_drop]
        have harith : s + 1 + ((x :: xs).length - 512) / 512 = s + (x :: xs).length / 512 := by
          simp only [List.length_cons] at hlen ⊢
          omega
        rw [harith, getCipherIV]
  intro l hdvd s
  exact main l.length l (le_refl _) hdvd s

/-- Sector independence of the specified stream: the stream of a
concatenation whose first part is sector-aligned splits at the sector
boundary. -/
theorem sectorStreamFrom_append (E : List Byte → List Byte → List Byte) (key : List Byte) :
    ∀ a b : List Byte, 512 ∣ a.length → ∀ s,
      sectorStreamFrom E key s (a ++ b) =
        sectorStreamFrom E key s a ++ sectorStreamFrom E key (s + a.length / 512) b := by
  have main : ∀ n (a b : List Byte), a.length ≤ n → 512 ∣ a.length → ∀ s,
      sectorStreamFrom E key s (a ++ b) =
        sectorStreamFrom E key s a ++ sectorStreamFrom E key (s + a.length / 512) b := by
    intro n
    induction n with
    | zero =>
      intro a b ha _ s
      have hnil : a = [] := List.eq_nil_of_length_eq_zero (Nat.le_zero.mp ha)
      subst hnil
      simp [sectorStreamFrom_nil]
    | succ n ih =>
      intro a b ha hdvd s
      match a with
      | [] => simp [sectorStreamFrom_nil]
      | x :: xs =>
        have hlen : 512 ≤ (x :: xs).length := by
          rcases hdvd with ⟨c, hc⟩
          rcases c with _ | c
          · simp at hc
          · simp only [List.length_cons] at hc ⊢; omega
        have hlen2 : 512 ≤ ((x :: xs) ++ b).length := by
          simp only [List.length_append]
          omega
        have hdvd2 : 512 ∣ ((x :: xs).drop 512).length := by
          simp only [List.length_drop]
          rcases hdvd with ⟨c, hc⟩
          exact ⟨c - 1, by omega⟩
        have hshort : ((x :: xs).drop 512).length ≤ n := by
          simp only [List.length_drop, List.length_cons] at ha hlen ⊢
          omega
        rw [sectorStreamFrom_step E key s _ hlen2, sectorStreamFrom_step E key s _ hlen]
        rw [List.take_append_of_le_length hlen, List.drop_append_of_le_length hlen]
        rw [ih _ b hshort hdvd2 (s + 1)]
        rw [List.append_assoc]
        have harith : s + 1 + ((x :: xs).drop 512).length / 512 = s + (x :: xs).length / 512 := by
          simp only [List.length_drop, List.length_cons] at hlen ⊢
          omega
        rw [harith]
  intro a b hdvd s
  exact main a.length a b (le_refl _) hdvd s

/-- `AESFile.write` on a sector-aligned buffer: emits the specified stream
for the current sector index, advances the index by the number of sectors,
and counts the plaintext bytes. -/
theorem AESFile.write_aligned (E : List Byte → List Byte → List Byte) (f : AESFile)
    (b : List Byte) (hb : b.length % 512 = 0) :
    f.write E b = Except.ok
      ({ f with sector := f.sector + b.length / 512, bytes := f.bytes + b.length },
       sectorStreamFrom E f.key f.sector b, b.length) := by
  rw [AESFile.write]
  simp only [SECTOR_SIZE]
  rw [if_neg (fun h => h hb)]
  rw [writeLoop_chunksOf E f.key b (Nat.dvd_of_mod_eq_zero hb) f.sector]

/-- Length of the zero padding applied to an unaligned buffer. -/
theorem padTo512_length (b : List Byte) :
    (padTo512 b).length = b.length + (512 - b.length % 512) ∧ (padTo512 b).length % 512 = 0 := by
  unfold padTo512
  simp only [SECTOR_SIZE, List.length_append, List.length_replicate, true_and]
  omega

/-- `AESFile.write` on an unaligned buffer with `pad` on: zero-pads to the
sector boundary, emits the specified stream of the padded buffer, but counts
and returns only the pre-padding length. -/
theorem AESFile.write_padded (E : List Byte → List Byte → List Byte) (f : AESFile)
    (b : List Byte) (hb : b.length % 512 ≠ 0) (hp : f.pad = true) :
    f.write E b = Except.ok
      ({ f with sector := f.sector + (padTo512 b).length / 512, bytes := f.bytes + b.length },
       sectorStreamFrom E f.key f.sector (padTo512 b), b.length) := by
  rw [AESFile.write]
  simp only [SECTOR_SIZE]
  rw [if_pos (by omega), if_neg (by simp [hp])]
  rw [writeLoop_chunksOf E f.key (padTo512 b)
    (Nat.dvd_of_mod_eq_zero (padTo512_length b).2) f.sector]

/-- `AESFile.write` on an unaligned buffer with `pad` off raises before any
byte is encrypted or written. -/
theorem AESFile.write_unaligned_nopad (E : List Byte → List Byte → List Byte) (f : AESFile)
    (b : List Byte) (hb : b.length % 512 ≠ 0) (hp : f.pad = false) :
    f.write E b = Except.error "Buffer Size has to be a multiple of 512 bytes" := by
  rw [AESFile.write]
  simp only [SECTOR_SIZE]
  rw [if_pos (by omega), if_pos hp]

/-- A whole lifetime of sector-aligned `write` calls emits exactly the
specified sector-indexed stream of the concatenated plaintext, with the
sector counter threaded across calls. -/
theorem AESFile.writeAll_aligned (E : List Byte → List Byte → List Byte) :
    ∀ bufs : List (List Byte), (∀ b ∈ bufs, b.length % 512 = 0) → ∀ f : AESFile,
      f.writeAll E bufs = Except.ok
        ({ f with sector := f.sector + bufs.flatten.length / 512, bytes := f.bytes + (bufs.map List.length).sum },
         sectorStreamFrom E f.key f.sector bufs.flatten) := by
  intro bufs
  induction bufs with
  | nil =>
    intro _ f
    simp [AESFile.writeAll, sectorStreamFrom_nil]
  | cons b bs ih =>
    intro hall f
    have hb : b.length % 512 = 0 := hall b (by simp)
    have hbs : ∀ x ∈ bs, x.length % 512 = 0 := fun x hx => hall x (by simp [hx])
    rw [AESFile.writeAll, AESFile.write_aligned E f b hb]
    dsimp only
    rw [ih hbs]
    simp only [List.flatten_cons, List.map_cons, List.sum_cons, List.length_append]
    rw [sectorStreamFrom_append E f.key b bs.flatten (Nat.dvd_of_mod_eq_zero hb) f.sector]
    simp only [Prod.mk.injEq, AESFile.mk.injEq, Except.ok.injEq, true_and, and_true]
    have h512 : 512 ∣ b.length := Nat.dvd_of_mod_eq_zero hb
    constructor <;> omega

/-- C1: For every passphrase and every sequence of writes whose lengths are
multiples of 512, the bytes the `AESFile` sink pushes to the underlying
medium are exactly the plaintext split into consecutive 512-byte sectors,
where sector `n` (counting from 0 over the whole lifetime of the sink,
across write calls) is encrypted with CBC under key = first 16 bytes of
SHA-256(passphrase) and IV = the 16-byte little-endian encoding of `n`,
with a fresh CBC chain per sector and no header, HMAC or envelope bytes
added.  The AES block function `E` and the hash `sha256` are universally
quantified external primitives. -/
theorem aesfile_write_matches_aespipe_stream (E : List Byte → List Byte → List Byte)
    (sha256 : List Byte → List Byte) (passphrase : List Byte) (pad : Bool)
    (bufs : List (List Byte)) (haligned : ∀ b ∈ bufs, b.length % 512 = 0) :
    ∃ fin : AESFile,
      (AESFile.init sha256 passphrase pad).writeAll E bufs =
        Except.ok (fin, specAespipeEncrypt E sha256 passphrase bufs.flatten) :=
  ⟨_, by rw [AESFile.writeAll_aligned E bufs haligned]; rfl⟩

set_option maxRecDepth 8000 in
/-- Witness for C1 at a concrete input: one aligned 512-byte write with
concrete primitive instances. -/
theorem aesfile_write_matches_aespipe_stream_witness :
    (∀ b ∈ [List.replicate 512 (0 : Byte)], b.length % 512 = 0) ∧
    ∃ fin : Aestar.AESFile,
      (Aestar.AESFile.init (fun p => p) [1] true).writeAll (fun _ b => b)
          [List.replicate 512 (0 : Byte)] =
        Except.ok (fin, Aestar.specAespipeEncrypt (fun _ b => b) (fun p => p) [1]
          ([List.replicate 512 (0 : Byte)].flatten)) :=
  ⟨by decide, aesfile_write_matches_aespipe_stream (fun _ b => b) (fun p => p) [1] true
      [List.replicate 512 (0 : Byte)] (by decide)⟩

/-- C9: For plaintexts of equal sector-aligned length, one write of the
concatenation and two successive writes emit identical bytes from identical
states, and from sector 0 the output is the stream of the first part at
sector 0 followed by the stream of the second part at sector L / 512. -/
theorem aesfile_sector_independence (E : List Byte → List Byte → List Byte)
    (f : AESFile) (L : Nat) (p1 p2 : List Byte)
    (h1 : p1.length = L) (h2 : p2.length = L) (hL : L % 512 = 0) (hsec : f.sector = 0) :
    f.writeAll E [p1 ++ p2] = f.writeAll E [p1, p2] ∧
    ∃ fin : AESFile, f.writeAll E [p1 ++ p2] =
      Except.ok (fin, sectorStreamFrom E f.key 0 p1 ++ sectorStreamFrom E f.key (L / 512) p2) := by
  have hp1 : p1.length % 512 = 0 := by omega
  have hp2 : p2.length % 512 = 0 := by omega
  have hcat : (p1 ++ p2).length % 512 = 0 := by
    simp only [List.length_append]
    omega
  constructor
  · rw [AESFile.writeAll_aligned E [p1 ++ p2] (by simpa using hcat) f,
      AESFile.writeAll_aligned E [p1, p2] (by simp [hp1, hp2]) f]
    simp
  · refine ⟨{ f with sector := f.sector + ([p1 ++ p2] : List (List Byte)).flatten.length / 512, bytes := f.bytes + (([p1 ++ p2] : List (List Byte)).map List.length).sum }, ?_⟩
    rw [AESFile.writeAll_aligned E [p1 ++ p2] (by simpa using hcat) f]
    have hflat : ([p1 ++ p2] : List (List Byte)).flatten = p1 ++ p2 := by simp
    rw [hflat, sectorStreamFrom_append E f.key p1 p2 (Nat.dvd_of_mod_eq_zero hp1) f.sector,
      hsec, h1]
    simp only [Nat.zero_add]

set_option maxRecDepth 8000 in
/-- Witness for C9 at a concrete input: two 512-byte plaintexts. -/
theorem aesfile_sector_independence_witness :
    ((List.replicate 512 (1 : Byte)).length = 512 ∧ (List.replicate 512 (2 : Byte)).length = 512 ∧
      512 % 512 = 0 ∧ (Aestar.AESFile.init (fun p => p) [1] true).sector = 0) ∧
    ((AESFile.init (fun p => p) [1] true).writeAll (fun _ b => b)
        [List.replicate 512 (1 : Byte) ++ List.replicate 512 (2 : Byte)] =
      (AESFile.init (fun p => p) [1] true).writeAll (fun _ b => b)
        [List.replicate 512 (1 : Byte), List.replicate 512 (2 : Byte)] ∧
    ∃ fin : AESFile, (AESFile.init (fun p => p) [1] true).writeAll (fun _ b => b)
        [List.replicate 512 (1 : Byte) ++ List.replicate 512 (2 : Byte)] =
      Except.ok (fin, sectorStreamFrom (fun _ b => b) (AESFile.init (fun p => p) [1] true).key 0
          (List.replicate 512 (1 : Byte)) ++
        sectorStreamFrom (fun _ b => b) (AESFile.init (fun p => p) [1] true).key (512 / 512)
          (List.replicate 512 (2 : Byte)))) :=
  ⟨⟨by decide, by decide, by decide, rfl⟩,
    aesfile_sector_independence (fun _ b => b) (AESFile.init (fun p => p) [1] true) 512
      (List.replicate 512 (1 : Byte)) (List.replicate 512 (2 : Byte))
      (by decide) (by decide) (by decide) rfl⟩

/-- C6: An unaligned `write` with `pad` off is rejected with the unaligned
write error before anything is encrypted or emitted; with `pad` on the
buffer is zero-padded to the next 512-byte boundary before encryption, the
call returns the pre-padding length, and `tell` afterwards reports the
cumulative pre-padding byte count. -/
theorem aesfile_unaligned_write (E : List Byte → List Byte → List Byte)
    (f : AESFile) (b : List Byte) (hb : b.length % 512 ≠ 0) :
    (f.pad = false → f.write E b = Except.error "Buffer Size has to be a multiple of 512 bytes") ∧
    (f.pad = true →
      f.write E b = Except.ok
        ({ f with sector := f.sector + (padTo512 b).length / 512, bytes := f.bytes + b.length },
         sectorStreamFrom E f.key f.sector (padTo512 b), b.length) ∧
      padTo512 b = b ++ List.replicate (512 - b.length % 512) 0 ∧
      ∀ f1 rest, f.write E b = Except.ok (f1, rest) → f1.tell = f.tell + b.length) := by
  constructor
  · intro hp
    exact AESFile.write_unaligned_nopad E f b hb hp
  · intro hp
    refine ⟨AESFile.write_padded E f b hb hp, by rw [padTo512]; rfl, ?_⟩
    intro f1 rest hok
    rw [AESFile.write_padded E f b hb hp] at hok
    injection hok with h
    injection h with hf hr
    rw [← hf]
    rfl

/-- Witness for C6 at a concrete input: a one-byte buffer. -/
theorem aesfile_unaligned_write_witness :
    (([42] : List Byte).length % 512 ≠ 0) ∧
    ((AESFile.init (fun p => p) [1] true).pad = true →
      (AESFile.init (fun p => p) [1] true).write (fun _ b => b) [42] = Except.ok
        ({ AESFile.init (fun p => p) [1] true with
            sector := (AESFile.init (fun p => p) [1] true).sector + (padTo512 [42]).length / 512,
            bytes := (AESFile.init (fun p => p) [1] true).bytes + ([42] : List Byte).length },
         sectorStreamFrom (fun _ b => b) (AESFile.init (fun p => p) [1] true).key
           (AESFile.init (fun p => p) [1] true).sector (padTo512 [42]), ([42] : List Byte).length) ∧
      padTo512 [42] = [42] ++ List.replicate (512 - ([42] : List Byte).length % 512) 0 ∧
      ∀ f1 rest, (AESFile.init (fun p => p) [1] true).write (fun _ b => b) [42] = Except.ok (f1, rest) →
        f1.tell = (AESFile.init (fun p => p) [1] true).tell + ([42] : List Byte).length) :=
  ⟨by decide,
    (aesfile_unaligned_write (fun _ b => b) (AESFile.init (fun p => p) [1] true) [42] (by decide)).2⟩

/-- The write buffer actually encrypted for one `write` call with `pad` on:
the caller buffer itself when sector-aligned, its zero-padded extension
otherwise (the `if` at the top of `AESFile.write`). -/
def padIfUnaligned (b : List Byte) : List Byte :=
  if b.length % SECTOR_SIZE = 0 then b else padTo512 b

/-- The plaintext that actually reaches the medium (and that decryption
recovers) across a sequence of `write` calls with `pad` on. -/
def mediumPlaintext (bufs : List (List Byte)) : List Byte :=
  (bufs.map padIfUnaligned).flatten

/-- Total number of zero bytes inserted by padding across a sequence of
`write` calls. -/
def cumPad (bufs : List (List Byte)) : Nat :=
  (bufs.map (fun b => (padIfUnaligned b).length - b.length)).sum

theorem padIfUnaligned_aligned (b : List Byte) : (padIfUnaligned b).length % 512 = 0 := by
  rw [padIfUnaligned]
  simp only [SECTOR_SIZE]
  by_cases hb : b.length % 512 = 0
  · rw [if_pos hb]; exact hb
  · rw [if_neg hb]
    exact (padTo512_length b).2

theorem padIfUnaligned_length (b : List Byte) : b.length ≤ (padIfUnaligned b).length := by
  rw [padIfUnaligned]
  by_cases hb : b.length % SECTOR_SIZE = 0
  · rw [if_pos hb]
  · rw [if_neg hb, padTo512]
    simp

theorem mediumPlaintext_cons (b : List Byte) (bs : List (List Byte)) :
    mediumPlaintext (b :: bs) = padIfUnaligned b ++ mediumPlaintext bs := by
  rw [mediumPlaintext, mediumPlaintext, List.map_cons, List.flatten_cons]

theorem mediumPlaintext_length (bufs : List (List Byte)) :
    (mediumPlaintext bufs).length = (bufs.map List.length).sum + cumPad bufs := by
  induction bufs with
  | nil => rfl
  | cons b bs ih =>
    have hle := padIfUnaligned_length b
    rw [mediumPlaintext_cons, List.length_append, ih]
    simp only [cumPad, List.map_cons, List.sum_cons]
    omega

theorem cumPad_pos (bufs : List (List Byte)) (h : ∃ b ∈ bufs, b.length % 512 ≠ 0) :
    0 < cumPad bufs := by
  induction bufs with
  | nil => simp at h
  | cons b bs ih =>
    rcases h with ⟨x, hx, hxu⟩
    rcases List.mem_cons.mp hx with hxb | hxbs
    · subst hxb
      rw [cumPad, List.map_cons, List.sum_cons]
      have : x.length < (padIfUnaligned x).length := by
        rw [padIfUnaligned]
        simp only [SECTOR_SIZE]
        rw [if_neg hxu, padTo512]
        simp only [SECTOR_SIZE, List.length_append, List.length_replicate]
        omega
      omega
    · have := ih ⟨x, hxbs, hxu⟩
      rw [cumPad, List.map_cons, List.sum_cons, ← cumPad]
      omega

/-- With `pad` on, every `write` succeeds and the whole lifetime emits the
sector stream of the concatenated padded buffers. -/
theorem AESFile.writeAll_pad (E : List Byte → List Byte → List Byte) :
    ∀ bufs : List (List Byte), ∀ f : AESFile, f.pad = true →
      f.writeAll E bufs = Except.ok
        ({ f with sector := f.sector + (mediumPlaintext bufs).length / 512, bytes := f.bytes + (bufs.map List.length).sum },
         sectorStreamFrom E f.key f.sector (mediumPlaintext bufs)) := by
  intro bufs
  induction bufs with
  | nil =>
    intro f _
    simp [AESFile.writeAll, mediumPlaintext, sectorStreamFrom_nil]
  | cons b bs ih =>
    intro f hp
    have hal : (padIfUnaligned b).length % 512 = 0 := padIfUnaligned_aligned b
    have hwrite : f.write E b = Except.ok
        ({ f with sector := f.sector + (padIfUnaligned b).length / 512, bytes := f.bytes + b.length },
         sectorStreamFrom E f.key f.sector (padIfUnaligned b), b.length) := by
      by_cases hb : b.length % 512 = 0
      · rw [AESFile.write_aligned E f b hb, padIfUnaligned]
        simp only [SECTOR_SIZE]
        rw [if_pos hb]
      · rw [AESFile.write_padded E f b hb hp, padIfUnaligned]
        simp only [SECTOR_SIZE]
        rw [if_neg hb]
    rw [AESFile.writeAll, hwrite]
    dsimp only
    rw [ih { f with sector := f.sector + (padIfUnaligned b).length / 512, bytes := f.bytes + b.length } hp]
    rw [mediumPlaintext_cons, sectorStreamFrom_append E f.key (padIfUnaligned b)
      (mediumPlaintext bs) (Nat.dvd_of_mod_eq_zero hal) f.sector]
    simp only [Prod.mk.injEq, AESFile.mk.injEq, Except.ok.injEq, true_and, and_true,
      List.map_cons, List.sum_cons, List.length_append]
    have h512 : 512 ∣ (padIfUnaligned b).length := Nat.dvd_of_mod_eq_zero hal
    constructor <;> omega

/-- C10: With `pad` on, the sink zero-pads every unaligned write, not only
the final one: the bytes on the medium are the encryption of the
concatenated padded buffers (pad zeros are embedded at interior positions),
so whenever some buffer is unaligned the decrypted stream differs from the
concatenation of the caller buffers, and `tell` falls short of the medium
plaintext byte count by exactly the cumulative pad length. -/
theorem aesfile_pads_every_unaligned_write (E : List Byte → List Byte → List Byte)
    (bufs : List (List Byte)) (f : AESFile) (hp : f.pad = true) :
    ∃ fin : AESFile,
      f.writeAll E bufs = Except.ok (fin, sectorStreamFrom E f.key f.sector (mediumPlaintext bufs)) ∧
      fin.tell = f.tell + (bufs.map List.length).sum ∧
      (mediumPlaintext bufs).length = (bufs.map List.length).sum + cumPad bufs ∧
      ((∃ b ∈ bufs, b.length % 512 ≠ 0) →
        0 < cumPad bufs ∧ mediumPlaintext bufs ≠ bufs.flatten) := by
  refine ⟨_, AESFile.writeAll_pad E bufs f hp, rfl, mediumPlaintext_length bufs, ?_⟩
  intro hex
  refine ⟨cumPad_pos bufs hex, ?_⟩
  intro heq
  have h1 := mediumPlaintext_length bufs
  have h2 : bufs.flatten.length = (bufs.map List.length).sum := by
    simp
  rw [heq, h2] at h1
  have := cumPad_pos bufs hex
  omega

set_option maxRecDepth 8000 in
/-- Witness for C10 at a concrete input: an unaligned one-byte write
followed by a further aligned write. -/
theorem aesfile_pads_every_unaligned_write_witness :
    (AESFile.init (fun p => p) [1] true).pad = true ∧
    ∃ fin : AESFile,
      (AESFile.init (fun p => p) [1] true).writeAll (fun _ b => b)
          [[42], List.replicate 512 (7 : Byte)] =
        Except.ok (fin, sectorStreamFrom (fun _ b => b) (AESFile.init (fun p => p) [1] true).key
          (AESFile.init (fun p => p) [1] true).sector
          (mediumPlaintext [[42], List.replicate 512 (7 : Byte)])) ∧
      fin.tell = (AESFile.init (fun p => p) [1] true).tell +
        (([[42], List.replicate 512 (7 : Byte)] : List (List Byte)).map List.length).sum ∧
      (mediumPlaintext [[42], List.replicate 512 (7 : Byte)]).length =
        (([[42], List.replicate 512 (7 : Byte)] : List (List Byte)).map List.length).sum +
          cumPad [[42], List.replicate 512 (7 : Byte)] ∧
      ((∃ b ∈ ([[42], List.replicate 512 (7 : Byte)] : List (List Byte)), b.length % 512 ≠ 0) →
        0 < cumPad [[42], List.replicate 512 (7 : Byte)] ∧
        mediumPlaintext [[42], List.replicate 512 (7 : Byte)] ≠
          ([[42], List.replicate 512 (7 : Byte)] : List (List Byte)).flatten) :=
  ⟨rfl, aesfile_pads_every_unaligned_write (fun _ b => b)
    [[42], List.replicate 512 (7 : Byte)] (AESFile.init (fun p => p) [1] true) rfl⟩

/-- The errno value `errno.ENOSPC` on Linux. -/
def ENOSPC : Nat := 28

/-- `TapeFile.write`.  The wrapped file object is modelled by `w`, the byte
count its own `write` returns for a given buffer.  The first component is
the call outcome: a completed underlying write returning 0 is raised as an
`IOError` with `errno.ENOSPC`; any other count returns normally.  The second
component logs the buffers handed to the wrapped object: the source body
issues exactly one underlying `write` per call. -/
def TapeFile.write (w : List Byte → Nat) (buf : List Byte) :
    Except Nat Unit × List (List Byte) :=
  (if w buf = 0 then Except.error ENOSPC else Except.ok (), [buf])

/-- C7: A completed underlying write of zero bytes is translated by
`TapeFile.write` into an end-of-medium error carrying `errno.ENOSPC`; an
underlying write returning a non-zero count does not raise. -/
theorem tapefile_write_zero_raises_enospc (w : List Byte → Nat) (buf : List Byte) :
    (w buf = 0 → (TapeFile.write w buf).1 = Except.error ENOSPC) ∧
    (w buf ≠ 0 → (TapeFile.write w buf).1 = Except.ok ()) := by
  constructor
  · intro h
    rw [TapeFile.write, if_pos h]
  · intro h
    rw [TapeFile.write, if_neg h]

/-- Witness for C7 at concrete inputs: a medium that accepts nothing and a
medium that accepts everything. -/
theorem tapefile_write_zero_raises_enospc_witness :
    (TapeFile.write (fun _ => 0) [1, 2]).1 = Except.error ENOSPC ∧
    (TapeFile.write (fun b => b.length) [1, 2]).1 = Except.ok () :=
  ⟨(tapefile_write_zero_raises_enospc (fun _ => 0) [1, 2]).1 rfl,
   (tapefile_write_zero_raises_enospc (fun b => b.length) [1, 2]).2 (by decide)⟩

/-- Modelled from the spec: the claimed behaviour of `MediumFile.write` on
short writes (re-queue the unwritten remainder, looping until the buffer is
drained or a zero write occurs), expressed as the log of buffers such a loop
would hand to the wrapped object.  This loop does not exist in the source;
it is the claim under test.  The fuel argument (instantiated with the buffer
length) bounds the recursion: every non-zero write removes at least one
byte. -/
def specRequeueFuel (w : List Byte → Nat) : Nat → List Byte → List (List Byte)
  | 0, _ => []
  | _ + 1, [] => []
  | fuel + 1, x :: xs =>
    if w (x :: xs) = 0 then [x :: xs]
    else if (x :: xs).length ≤ w (x :: xs) then [x :: xs]
    else (x :: xs) :: specRequeueFuel w fuel ((x :: xs).drop (w (x :: xs)))

/-- The call log of the claimed re-queue loop. -/
def specRequeueCalls (w : List Byte → Nat) (buf : List Byte) : List (List Byte) :=
  specRequeueFuel w buf.length buf

theorem specRequeueFuel_cons (w : List Byte → Nat) (fuel : Nat) (x : Byte) (xs : List Byte) :
    ∃ t, specRequeueFuel w (fuel + 1) (x :: xs) = (x :: xs) :: t := by
  rw [specRequeueFuel]
  by_cases h0 : w (x :: xs) = 0
  · exact ⟨[], by rw [if_pos h0]⟩
  · rw [if_neg h0]
    by_cases h1 : (x :: xs).length ≤ w (x :: xs)
    · exact ⟨[], by rw [if_pos h1]⟩
    · exact ⟨_, by rw [if_neg h1]⟩

/-- C8 counterexample: with a wrapped object that accepts exactly one byte
per call and a two-byte buffer, `TapeFile.write` issues a single underlying
call and stops, whereas the claimed re-queue loop would issue a second call
with the unwritten remainder; the call logs differ. -/
theorem tapefile_no_requeue_counterexample :
    (TapeFile.write (fun b => min b.length 1) [7, 8]).2 = [[7, 8]] ∧
    specRequeueCalls (fun b => min b.length 1) [7, 8] = [[7, 8], [8]] ∧
    ([[7, 8]] : List (List Byte)) ≠ [[7, 8], [8]] := by
  refine ⟨rfl, ?_, by decide⟩
  rfl

/-- C8 amended: `TapeFile.write` issues exactly one underlying write call
per invocation, raising end-of-medium only on a zero return; a short
non-zero write is accepted silently and the remainder is not re-queued, so
on a short write the source issues strictly fewer underlying calls than the
re-queue loop the specification describes. -/
theorem tapefile_write_single_underlying_call (w : List Byte → Nat) (buf : List Byte) :
    (TapeFile.write w buf).2 = [buf] ∧
    (w buf = 0 → (TapeFile.write w buf).1 = Except.error ENOSPC) ∧
    (w buf ≠ 0 → (TapeFile.write w buf).1 = Except.ok ()) ∧
    (0 < w buf → w buf < buf.length →
      (TapeFile.write w buf).2.length < (specRequeueCalls w buf).length) := by
  refine ⟨rfl, ?_, ?_, ?_⟩
  · intro h
    rw [TapeFile.write, if_pos h]
  · intro h
    rw [TapeFile.write, if_neg h]
  · intro hpos hshort
    match hbuf : buf with
    | [] => simp at hshort
    | x :: xs =>
      rw [specRequeueCalls]
      have hfuel : (x :: xs).length = xs.length + 1 := List.length_cons x xs
      rw [hfuel, specRequeueFuel]
      rw [if_neg (by omega), if_neg (by omega)]
      have hdropne : (x :: xs).drop (w (x :: xs)) ≠ [] := by
        intro hnil
        have := congrArg List.length hnil
        simp only [List.length_drop, List.length_cons, List.length_nil] at this
        simp only [List.length_cons] at hshort
        omega
      match hd : (x :: xs).drop (w (x :: xs)), hdropne with
      | y :: ys, _ =>
        have hfx : xs.length = (xs.length - 1) + 1 := by
          have := congrArg List.length hd
          simp only [List.length_drop, List.length_cons] at this
          simp only [List.length_cons] at hshort
          omega
        rw [hfx]
        obtain ⟨t, ht⟩ := specRequeueFuel_cons w (xs.length - 1) y ys
        rw [ht]
        dsimp only [TapeFile.write]
        simp only [List.length_cons, List.length_nil]
        omega

/-- Witness for the amended C8 at a concrete input: a one-byte-per-call
medium and a two-byte buffer. -/
theorem tapefile_write_single_underlying_call_witness :
    (TapeFile.write (fun b => min b.length 1) [7, 8]).2 = [[7, 8]] ∧
    (0 < min ([7, 8] : List Byte).length 1 ∧ min ([7, 8] : List Byte).length 1 < ([7, 8] : List Byte).length) ∧
    (TapeFile.write (fun b => min b.length 1) [7, 8]).2.length <
      (specRequeueCalls (fun b => min b.length 1) [7, 8]).length :=
  ⟨(tapefile_write_single_underlying_call (fun b => min b.length 1) [7, 8]).1,
   ⟨by decide, by decide⟩,
   (tapefile_write_single_underlying_call (fun b => min b.length 1) [7, 8]).2.2.2
     (by decide) (by decide)⟩

/-- One entry of `AESTarFile.pending_files`: the tuple
`(num_files, len(tarfile.fileobj.buf), aesfile.tell(), tarfile.offset)`
captured immediately after a member was added. -/
structure PendingRecord where
  seq : Nat
  buffer_fill : Nat
  sink_bytes : Nat
  offset : Nat
deriving Repr, DecidableEq

/-- Accounting state of an `AESTarFile`.  `tell` is the plaintext byte
counter of the underlying `AESFile` (`self.aesfile.tell()`); the tar
encoder and optional compressor are external collaborators whose writes
only ever advance `tell`. -/
structure AESTarFile where
  pending_files : List PendingRecord
  num_files : Nat
  tell : Nat
  previous_pending_length : Nat
deriving Repr, DecidableEq

/-- The committability test of `purge_pending`:
`(stats[1] + stats[2]) <= self.aesfile.tell()`. -/
def committable (tell : Nat) (r : PendingRecord) : Bool :=
  r.buffer_fill + r.sink_bytes ≤ tell

/-- The comprehension in `purge_pending`:
`[i for i, stats in enumerate(self.pending_files) if (stats[1] + stats[2]) <= self.aesfile.tell()]`. -/
def removeIndices (pending : List PendingRecord) (tell : Nat) : List Nat :=
  (pending.enum.filter (fun p => committable tell p.2)).map Prod.fst

/-- `AESTarFile.purge_pending`: when the comprehension is non-empty, keep
only the records after its last index. -/
def AESTarFile.purge_pending (s : AESTarFile) : AESTarFile :=
  match (removeIndices s.pending_files s.tell).getLast? with
  | none => { s with previous_pending_length := s.pending_files.length }
  | some i => { s with previous_pending_length := s.pending_files.length, pending_files := s.pending_files.drop (i + 1) }

/-- `AESTarFile.num_committed`, as the Python integer subtraction. -/
def AESTarFile.num_committed (s : AESTarFile) : Int :=
  (s.num_files : Int) - s.pending_files.length

theorem mem_removeIndices (l : List PendingRecord) (tell j : Nat) :
    j ∈ removeIndices l tell ↔ ∃ r, l[j]? = some r ∧ committable tell r = true := by
  rw [removeIndices]
  constructor
  · intro hj
    obtain ⟨p, hp, hpj⟩ := List.mem_map.mp hj
    obtain ⟨hpe, hpc⟩ := List.mem_filter.mp hp
    obtain ⟨i, r⟩ := p
    subst hpj
    exact ⟨r, List.mem_enum_iff_getElem?.mp hpe, hpc⟩
  · intro ⟨r, hr, hc⟩
    refine List.mem_map.mpr ⟨(j, r), List.mem_filter.mpr ⟨?_, hc⟩, rfl⟩
    exact List.mem_enum_iff_getElem?.mpr hr

theorem removeIndices_pairwise (l : List PendingRecord) (tell : Nat) :
    (removeIndices l tell).Pairwise (· < ·) := by
  have hsub : (removeIndices l tell).Sublist (l.enum.map Prod.fst) :=
    (List.filter_sublist _).map Prod.fst
  rw [List.enum_map_fst] at hsub
  exact (List.pairwise_lt_range l.length).sublist hsub

theorem pairwise_lt_le_getLast :
    ∀ l : List Nat, l.Pairwise (· < ·) → ∀ m, l.getLast? = some m → ∀ x ∈ l, x ≤ m := by
  intro l
  induction l with
  | nil => intro _ m hm; simp at hm
  | cons a t ih =>
    intro hp m hm x hx
    match t, hp, hm, hx with
    | [], _, hm, hx =>
      rw [List.mem_singleton.mp hx]
      simp only [List.getLast?_singleton, Option.some.injEq] at hm
      omega
    | b :: t2, hp, hm, hx =>
      rw [List.getLast?_cons_cons] at hm
      have hmem : m ∈ b :: t2 := List.mem_of_mem_getLast? hm
      rcases List.mem_cons.mp hx with hxa | hxt
      · subst hxa
        have := (List.pairwise_cons.mp hp).1 m hmem
        omega
      · exact ih (List.pairwise_cons.mp hp).2 m hm x hxt

/-- C3: `purge_pending` removes exactly the prefix of the pending list up to
and including the last record satisfying
`buffer_fill + sink_bytes ≤ tell` at the time of the call: later records
are kept, no hole is made, and when no record satisfies the test the list
is unchanged.  The counters are untouched. -/
theorem purge_pending_removes_exact_prefix (s : AESTarFile) :
    ∃ k : Nat,
      s.purge_pending.pending_files = s.pending_files.drop k ∧
      s.purge_pending.num_files = s.num_files ∧
      s.purge_pending.tell = s.tell ∧
      ((k = 0 ∧ ∀ r ∈ s.pending_files, committable s.tell r = false) ∨
       (1 ≤ k ∧ (∃ r, s.pending_files[k - 1]? = some r ∧ committable s.tell r = true) ∧
        ∀ j r2, k ≤ j → s.pending_files[j]? = some r2 → committable s.tell r2 = false)) := by
  rw [AESTarFile.purge_pending]
  match hlast : (removeIndices s.pending_files s.tell).getLast? with
  | none =>
    refine ⟨0, by simp, rfl, rfl, Or.inl ⟨rfl, ?_⟩⟩
    intro r hr
    have hnil : removeIndices s.pending_files s.tell = [] :=
      List.getLast?_eq_none_iff.mp hlast
    obtain ⟨j, hj⟩ := List.mem_iff_getElem?.mp hr
    by_contra hc
    have hcm : committable s.tell r = true := by
      cases hcc : committable s.tell r
      · exact absurd hcc hc
      · rfl
    have : j ∈ removeIndices s.pending_files s.tell :=
      (mem_removeIndices s.pending_files s.tell j).mpr ⟨r, hj, hcm⟩
    rw [hnil] at this
    simp at this
  | some i =>
    refine ⟨i + 1, rfl, rfl, rfl, Or.inr ⟨by omega, ?_, ?_⟩⟩
    · have hmem : i ∈ removeIndices s.pending_files s.tell :=
        List.mem_of_mem_getLast? hlast
      obtain ⟨r, hr, hc⟩ := (mem_removeIndices s.pending_files s.tell i).mp hmem
      exact ⟨r, by simpa using hr, hc⟩
    · intro j r2 hj hr2
      by_contra hc
      have hcm : committable s.tell r2 = true := by
        cases hcc : committable s.tell r2
        · exact absurd hcc hc
        · rfl
      have hjmem : j ∈ removeIndices s.pending_files s.tell :=
        (mem_removeIndices s.pending_files s.tell j).mpr ⟨r2, hr2, hcm⟩
      have := pairwise_lt_le_getLast (removeIndices s.pending_files s.tell)
        (removeIndices_pairwise s.pending_files s.tell) i hlast j hjmem
      omega

/-- Witness for C3 at a concrete input: two records, the first committable,
the second not. -/
theorem purge_pending_removes_exact_prefix_witness :
    ∃ k : Nat,
      (AESTarFile.purge_pending ⟨[⟨1, 0, 0, 0⟩, ⟨2, 9, 9, 0⟩], 2, 5, 0⟩).pending_files =
        ([⟨1, 0, 0, 0⟩, ⟨2, 9, 9, 0⟩] : List PendingRecord).drop k ∧
      (AESTarFile.purge_pending ⟨[⟨1, 0, 0, 0⟩, ⟨2, 9, 9, 0⟩], 2, 5, 0⟩).num_files = 2 ∧
      (AESTarFile.purge_pending ⟨[⟨1, 0, 0, 0⟩, ⟨2, 9, 9, 0⟩], 2, 5, 0⟩).tell = 5 ∧
      ((k = 0 ∧ ∀ r ∈ ([⟨1, 0, 0, 0⟩, ⟨2, 9, 9, 0⟩] : List PendingRecord),
          committable 5 r = false) ∨
       (1 ≤ k ∧ (∃ r, ([⟨1, 0, 0, 0⟩, ⟨2, 9, 9, 0⟩] : List PendingRecord)[k - 1]? = some r ∧
          committable 5 r = true) ∧
        ∀ j r2, k ≤ j → ([⟨1, 0, 0, 0⟩, ⟨2, 9, 9, 0⟩] : List PendingRecord)[j]? = some r2 →
          committable 5 r2 = false)) :=
  purge_pending_removes_exact_prefix ⟨[⟨1, 0, 0, 0⟩, ⟨2, 9, 9, 0⟩], 2, 5, 0⟩

/-- One driver-visible operation on an `AESTarFile`.  `delta` is the number
of plaintext bytes the tar layer pushed into the sink during the call (the
sink counter only grows).  `addOk delta bufFill offset` is a successful
`add`: purge first, tar write advancing `tell`, then `num_files += 1` and a
new pending record appended, capturing the staging-buffer fill and
`aesfile.tell()` after the write.  `addFail delta` is an `add` whose tar
write raised after `delta` bytes reached the sink: purge first, then the
purge of the except handler (`close_early` touches no counter before the
re-raise).  `purge` is a bare `purge_pending` call. -/
inductive TarOp where
  | addOk (delta bufFill offset : Nat)
  | addFail (delta : Nat)
  | purge
deriving Repr, DecidableEq

/-- Apply one operation to the state, mirroring `AESTarFile.add` and
`AESTarFile.purge_pending`. -/
def TarOp.apply (s : AESTarFile) : TarOp → AESTarFile
  | .addOk delta bufFill offset =>
    let s1 := s.purge_pending
    let s2 := { s1 with tell := s1.tell + delta, num_files := s1.num_files + 1 }
    { s2 with pending_files := s2.pending_files ++ [⟨s2.num_files, bufFill, s2.tell, offset⟩] }
  | .addFail delta =>
    let s1 := s.purge_pending
    AESTarFile.purge_pending { s1 with tell := s1.tell + delta }
  | .purge => s.purge_pending

/-- The state of a freshly constructed `AESTarFile`. -/
def AESTarFile.initState : AESTarFile := ⟨[], 0, 0, 0⟩

/-- Run a sequence of operations. -/
def runTarOps (s : AESTarFile) : List TarOp → AESTarFile
  | [] => s
  | op :: ops => runTarOps (TarOp.apply s op) ops

theorem purge_pending_shape (s : AESTarFile) :
    ∃ k, s.purge_pending.pending_files = s.pending_files.drop k ∧
      s.purge_pending.num_files = s.num_files ∧ s.purge_pending.tell = s.tell := by
  obtain ⟨k, h1, h2, h3, _⟩ := purge_pending_removes_exact_prefix s
  exact ⟨k, h1, h2, h3⟩

theorem purge_pending_num_committed (s : AESTarFile) :
    s.num_committed ≤ s.purge_pending.num_committed ∧
    s.purge_pending.num_files = s.num_files ∧
    s.purge_pending.pending_files.length ≤ s.pending_files.length := by
  obtain ⟨k, h1, h2, _⟩ := purge_pending_shape s
  have hlen : s.purge_pending.pending_files.length ≤ s.pending_files.length := by
    rw [h1, List.length_drop]
    omega
  refine ⟨?_, h2, hlen⟩
  rw [AESTarFile.num_committed, AESTarFile.num_committed, h2]
  omega

/-- The bookkeeping invariant: never more pending records than added
members. -/
def TarInv (s : AESTarFile) : Prop := s.pending_files.length ≤ s.num_files

theorem tarOp_step (s : AESTarFile) (op : TarOp) :
    (TarInv s → TarInv (TarOp.apply s op)) ∧
    s.num_committed ≤ (TarOp.apply s op).num_committed := by
  match op with
  | .addOk delta bufFill offset =>
    obtain ⟨hc, hn, hl⟩ := purge_pending_num_committed s
    simp only [AESTarFile.num_committed] at hc
    constructor
    · intro hinv
      rw [TarInv] at hinv ⊢
      rw [TarOp.apply]
      try dsimp only
      simp only [List.length_append, List.length_cons, List.length_nil]
      omega
    · rw [TarOp.apply]
      try dsimp only
      simp only [AESTarFile.num_committed]
      try dsimp only
      simp only [List.length_append, List.length_cons, List.length_nil]
      omega
  | .addFail delta =>
    obtain ⟨hc1, hn1, hl1⟩ := purge_pending_num_committed s
    obtain ⟨hc2, hn2, hl2⟩ :=
      purge_pending_num_committed { s.purge_pending with tell := s.purge_pending.tell + delta }
    simp only [AESTarFile.num_committed] at hc1 hc2
    try dsimp only at hc2 hn2 hl2
    constructor
    · intro hinv
      rw [TarInv] at hinv ⊢
      rw [TarOp.apply]
      try dsimp only
      omega
    · rw [TarOp.apply]
      try dsimp only
      simp only [AESTarFile.num_committed]
      omega
  | .purge =>
    obtain ⟨hc, hn, hl⟩ := purge_pending_num_committed s
    constructor
    · intro hinv
      rw [TarInv] at hinv ⊢
      rw [TarOp.apply]
      omega
    · rw [TarOp.apply]
      exact hc

theorem runTarOps_mono (ops : List TarOp) :
    ∀ s : AESTarFile, (TarInv s → TarInv (runTarOps s ops)) ∧
      s.num_committed ≤ (runTarOps s ops).num_committed := by
  induction ops with
  | nil => intro s; exact ⟨fun h => h, le_refl _⟩
  | cons op ops ih =>
    intro s
    obtain ⟨hstep1, hstep2⟩ := tarOp_step s op
    obtain ⟨hrun1, hrun2⟩ := ih (TarOp.apply s op)
    rw [runTarOps]
    exact ⟨fun h => hrun1 (hstep1 h), le_trans hstep2 hrun2⟩

/-- C4: Across any interleaving of successful `add` calls, failed `add`
calls (end-of-medium mid-write) and `purge_pending` calls,
`num_committed = num_files - len(pending_files)` never decreases, is never
negative, and never exceeds `num_files`. -/
theorem num_committed_monotone_bounded (ops : List TarOp) (i j : Nat) (hij : i ≤ j) :
    (runTarOps AESTarFile.initState (ops.take i)).num_committed ≤
      (runTarOps AESTarFile.initState (ops.take j)).num_committed ∧
    0 ≤ (runTarOps AESTarFile.initState (ops.take i)).num_committed ∧
    (runTarOps AESTarFile.initState (ops.take i)).num_committed ≤
      (runTarOps AESTarFile.initState (ops.take i)).num_files := by
  have hsplit : ∀ s : AESTarFile, ∀ a b : List TarOp,
      runTarOps s (a ++ b) = runTarOps (runTarOps s a) b := by
    intro s a
    induction a generalizing s with
    | nil => intro b; rfl
    | cons op t ih => intro b; rw [List.cons_append, runTarOps, runTarOps, ih]
  have htj : ops.take j = ops.take i ++ (ops.drop i).take (j - i) := by
    rw [← List.take_add]
    congr 1
    omega
  have hinv : TarInv (runTarOps AESTarFile.initState (ops.take i)) :=
    (runTarOps_mono (ops.take i) AESTarFile.initState).1 (by rw [TarInv]; exact le_refl 0)
  refine ⟨?_, ?_, ?_⟩
  · rw [htj, hsplit]
    exact (runTarOps_mono ((ops.drop i).take (j - i)) _).2
  · rw [TarInv] at hinv
    rw [AESTarFile.num_committed]
    omega
  · rw [AESTarFile.num_committed]
    omega

/-- Witness for C4 at a concrete input: one successful add, one failed add
and a purge, compared at positions 1 and 3. -/
theorem num_committed_monotone_bounded_witness :
    (1 ≤ 3) ∧
    ((runTarOps AESTarFile.initState ([TarOp.addOk 5 0 0, TarOp.addFail 2, TarOp.purge].take 1)).num_committed ≤
      (runTarOps AESTarFile.initState ([TarOp.addOk 5 0 0, TarOp.addFail 2, TarOp.purge].take 3)).num_committed ∧
    0 ≤ (runTarOps AESTarFile.initState ([TarOp.addOk 5 0 0, TarOp.addFail 2, TarOp.purge].take 1)).num_committed ∧
    (runTarOps AESTarFile.initState ([TarOp.addOk 5 0 0, TarOp.addFail 2, TarOp.purge].take 1)).num_committed ≤
      (runTarOps AESTarFile.initState ([TarOp.addOk 5 0 0, TarOp.addFail 2, TarOp.purge].take 1)).num_files) :=
  ⟨by omega, num_committed_monotone_bounded [TarOp.addOk 5 0 0, TarOp.addFail 2, TarOp.purge] 1 3 (by omega)⟩

/-- Outcome kinds of `AESTarFile.close`: a medium write error escaping the
trailer flush, or the final sanity check firing. -/
inductive CloseError where
  | medium
  | sanity
deriving Repr, DecidableEq

/-- `AESTarFile.close`.  `self.tarfile.close()` flushes the tar trailer (two
zero blocks plus block padding) and the compressor tail through the sink and
`self.aesfile.close()` closes it; both are external collaborators, modelled
by `tarClose`: `none` means a medium write error escaped (close propagates
it before touching the counters), `some finalDelta` means the flush
completed, pushing `finalDelta` further plaintext bytes into the sink.
Then `purge_pending` runs one final time and
`if self.num_files != self.num_committed: raise`. -/
def AESTarFile.close (s : AESTarFile) (tarClose : Option Nat) : Except CloseError AESTarFile :=
  match tarClose with
  | none => Except.error CloseError.medium
  | some finalDelta =>
    let s1 := AESTarFile.purge_pending { s with tell := s.tell + finalDelta }
    if (s1.num_files : Int) ≠ s1.num_committed then Except.error CloseError.sanity
    else Except.ok s1

/-- C5: A `close()` whose trailer flush completes performs the final
`purge_pending` on the post-flush state; if it returns without error then
`num_committed = num_files` holds, and if that equality fails after the
final purge it raises the sanity error instead.  A medium write error in
the flush propagates untouched. -/
theorem close_establishes_full_commit (s : AESTarFile) (finalDelta : Nat) :
    (∀ s1, s.close (some finalDelta) = Except.ok s1 →
      s1 = AESTarFile.purge_pending { s with tell := s.tell + finalDelta } ∧
      s1.num_committed = s1.num_files) ∧
    ((AESTarFile.purge_pending { s with tell := s.tell + finalDelta }).num_committed ≠
        ((AESTarFile.purge_pending { s with tell := s.tell + finalDelta }).num_files : Int) →
      s.close (some finalDelta) = Except.error CloseError.sanity) ∧
    s.close none = Except.error CloseError.medium := by
  refine ⟨?_, ?_, rfl⟩
  · intro s1 hok
    rw [AESTarFile.close] at hok
    by_cases hchk : ((AESTarFile.purge_pending { s with tell := s.tell + finalDelta }).num_files : Int) ≠
        (AESTarFile.purge_pending { s with tell := s.tell + finalDelta }).num_committed
    · rw [if_pos hchk] at hok
      exact absurd hok (by simp)
    · rw [if_neg hchk] at hok
      injection hok with h
      push_neg at hchk
      exact ⟨h.symm, by rw [← h]; omega⟩
  · intro hne
    rw [AESTarFile.close]
    rw [if_pos (by omega)]

/-- Witness for C5 at a concrete input: closing an archive whose single
member is already durable succeeds with the equality, and closing one with
a never-committable record raises the sanity error. -/
theorem close_establishes_full_commit_witness :
    (∀ s1, AESTarFile.close ⟨[⟨1, 0, 0, 0⟩], 1, 0, 0⟩ (some 4) = Except.ok s1 →
      s1 = AESTarFile.purge_pending { (⟨[⟨1, 0, 0, 0⟩], 1, 0, 0⟩ : AESTarFile) with tell := 0 + 4 } ∧
      s1.num_committed = s1.num_files) ∧
    AESTarFile.close ⟨[⟨1, 0, 0, 0⟩], 1, 0, 0⟩ none = Except.error CloseError.medium ∧
    (AESTarFile.close ⟨[⟨1, 0, 0, 0⟩], 1, 0, 0⟩ (some 4)).isOk = true :=
  ⟨(close_establishes_full_commit ⟨[⟨1, 0, 0, 0⟩], 1, 0, 0⟩ 4).1,
   (close_establishes_full_commit ⟨[⟨1, 0, 0, 0⟩], 1, 0, 0⟩ 4).2.2,
   by decide⟩

/-- State of a `PendingQueue`.  Items are identified by their producer
index, `queue` is the upstream producer FIFO with its head the item the
next `self.queue.get()` returns (a blocking get on an empty producer is
modelled as `none`).  `restore_queue` is the deque listed left to right:
the Python `appendleft` conses at the head and `pop` removes the last
element.  `restore` is the flag the driver sets on end-of-medium. -/
structure PendingQueue where
  queue : List Nat
  restore_queue : List Nat
  restore : Bool
deriving Repr, DecidableEq

/-- `PendingQueue.get`: in restore mode replay from the right end of the
deque, falling back to the producer (and clearing the flag) once the deque
is exhausted; the returned item is always fed back at the left end, to be
removed only by `confirm`. -/
def PendingQueue.get (q : PendingQueue) : Option (Nat × PendingQueue) :=
  if q.restore then
    match q.restore_queue.getLast? with
    | some item =>
      some (item, { q with restore_queue := item :: q.restore_queue.dropLast })
    | none =>
      match q.queue with
      | [] => none
      | x :: rest => some (x, { queue := rest, restore_queue := [x], restore := false })
  else
    match q.queue with
    | [] => none
    | x :: rest => some (x, { q with queue := rest, restore_queue := x :: q.restore_queue })

/-- One `self.restore_queue.pop()`: the rightmost element and the rest. -/
def popRight (l : List Nat) : Option (Nat × List Nat) :=
  match l.getLast? with
  | some x => some (x, l.dropLast)
  | none => none

/-- The comprehension `[self.restore_queue.pop() for _i in range(num)]`:
`num` pops from the right, in pop order; `none` models the `IndexError`
when the deque runs out. -/
def confirmAux : Nat → List Nat → Option (List Nat × List Nat)
  | 0, l => some ([], l)
  | num + 1, l =>
    match popRight l with
    | none => none
    | some (x, rest) =>
      match confirmAux num rest with
      | none => none
      | some (xs, rem) => some (x :: xs, rem)

/-- `PendingQueue.confirm`. -/
def PendingQueue.confirm (q : PendingQueue) (num : Nat) : Option (List Nat × PendingQueue) :=
  match confirmAux num q.restore_queue with
  | none => none
  | some (xs, rem) => some (xs, { q with restore_queue := rem })

/-- A fresh `PendingQueue` over a producer that will deliver items
`0, 1, ..., n-1` in order. -/
def PendingQueue.initial (n : Nat) : PendingQueue := ⟨List.range n, [], false⟩

/-- Producer position: how many items have left the producer queue. -/
def qPtr (n : Nat) (q : PendingQueue) : Nat := n - q.queue.length

/-- The descending run of indices `[b-1, ..., a]`: the deque segment shape
of this data structure. -/
def revRange (a b : Nat) : List Nat := (List.range' a (b - a)).reverse

/-- No replay is partially in progress: the deque is exactly the descending
run of the unconfirmed indices, oldest at the right end. -/
def Unrotated (n : Nat) (q : PendingQueue) : Prop :=
  q.restore_queue = revRange (qPtr n q - q.restore_queue.length) (qPtr n q)

@[simp]
theorem revRange_self (a : Nat) : revRange a a = [] := by
  rw [revRange]
  simp

theorem length_revRange (a b : Nat) : (revRange a b).length = b - a := by
  rw [revRange]
  simp

theorem getLast?_revRange (a b : Nat) (h : a < b) : (revRange a b).getLast? = some a := by
  rw [revRange, List.getLast?_reverse]
  have hb : b - a = (b - a - 1) + 1 := by omega
  rw [hb, List.range'_succ]
  rfl

theorem dropLast_revRange (a b : Nat) (h : a < b) :
    (revRange a b).dropLast = revRange (a + 1) b := by
  rw [revRange, revRange, List.dropLast_reverse]
  have hb : b - a = (b - a - 1) + 1 := by omega
  rw [hb, List.range'_succ]
  have hb2 : b - (a + 1) = b - a - 1 := by omega
  rw [hb2]
  rfl

theorem cons_revRange (a b : Nat) (h : a ≤ b) :
    b :: revRange a b = revRange a (b + 1) := by
  rw [revRange, revRange]
  have hb : b + 1 - a = (b - a) + 1 := by omega
  rw [hb, List.range'_1_concat, List.reverse_concat]
  have hab : a + (b - a) = b := by omega
  rw [hab]

theorem revRange_ne_nil (a b : Nat) (h : a < b) : revRange a b ≠ [] := by
  intro hnil
  have := congrArg List.length hnil
  rw [length_revRange] at this
  simp at this
  omega

/-- Ghost characterization of a reachable `PendingQueue` state over the
producer `[0..n)`: `m` is the oldest unconfirmed index, `qPtr` the next
fresh producer index, and `j` the rotation point of the deque — indices
`[j, qPtr)` wait to be re-yielded in the current replay pass, `[m, j)` have
already been re-yielded in it.  The shapes `j = m` and `j = qPtr` denote
the same un-rotated deque; the canonical representative `j = m` is imposed,
and a cleared flag forces the un-rotated shape. -/
def QInv (n : Nat) (q : PendingQueue) (m j : Nat) : Prop :=
  m ≤ j ∧ j ≤ qPtr n q ∧ qPtr n q ≤ n ∧ (j = qPtr n q → j = m) ∧
  q.queue = List.range' (qPtr n q) (n - qPtr n q) ∧
  q.restore_queue = revRange m j ++ revRange j (qPtr n q) ∧
  (q.restore = false → j = m)

theorem QInv_rq_length (n : Nat) (q : PendingQueue) (m j : Nat) (h : QInv n q m j) :
    q.restore_queue.length = qPtr n q - m := by
  obtain ⟨h1, h2, _, _, _, h6, _⟩ := h
  rw [h6, List.length_append, length_revRange, length_revRange]
  omega

theorem QInv_set (n : Nat) (q : PendingQueue) (m j : Nat) (h : QInv n q m j) :
    QInv n { q with restore := true } m j := by
  obtain ⟨h1, h2, h3, h4, h5, h6, _⟩ := h
  exact ⟨h1, h2, h3, h4, h5, h6, by intro hx; simp at hx⟩

theorem confirmAux_revRange (qP : Nat) :
    ∀ k m, m ≤ qP →
      confirmAux k (revRange m qP) =
        if k ≤ qP - m then some (List.range' m k, revRange (m + k) qP) else none := by
  intro k
  induction k with
  | zero =>
    intro m hm
    rw [confirmAux, if_pos (by omega)]
    simp
  | succ k ih =>
    intro m hm
    rw [confirmAux]
    by_cases hlt : m < qP
    · rw [popRight, getLast?_revRange m qP hlt]
      dsimp only
      rw [dropLast_revRange m qP hlt, ih (m + 1) (by omega)]
      by_cases hk : k ≤ qP - (m + 1)
      · rw [if_pos hk]
        dsimp only
        rw [if_pos (by omega)]
        have hr : List.range' m (k + 1) = m :: List.range' (m + 1) k := List.range'_succ m k 1
        rw [hr]
        have ha : m + 1 + k = m + (k + 1) := by omega
        rw [ha]
      · rw [if_neg hk]
        dsimp only
        rw [if_neg (by omega)]
    · have hm2 : m = qP := by omega
      subst hm2
      rw [revRange_self, popRight]
      simp only [List.getLast?_nil]
      rw [if_neg (by omega)]

theorem unrotated_rq (n : Nat) (q : PendingQueue) (m j : Nat)
    (hinv : QInv n q m j) (hu : Unrotated n q) :
    q.restore_queue = revRange m (qPtr n q) := by
  have hlen := QInv_rq_length n q m j hinv
  have hm : m ≤ qPtr n q := by
    obtain ⟨h1, h2, _⟩ := hinv
    omega
  rw [Unrotated, hlen] at hu
  have : qPtr n q - (qPtr n q - m) = m := by omega
  rw [this] at hu
  exact hu

/-- From an un-rotated state, the restriction-free ghost pair `(m, m)` is
also a valid characterization. -/
theorem QInv_of_unrotated (n : Nat) (q : PendingQueue) (m j : Nat)
    (hinv : QInv n q m j) (hu : Unrotated n q) : QInv n q m m := by
  have hrq := unrotated_rq n q m j hinv hu
  obtain ⟨h1, h2, h3, h4, h5, h6, _⟩ := hinv
  refine ⟨le_refl m, by omega, h3, fun _ => rfl, h5, ?_, fun _ => rfl⟩
  rw [revRange_self, List.nil_append]
  exact hrq

theorem QInv_confirm (n : Nat) (q : PendingQueue) (m k : Nat) (xs : List Nat)
    (q1 : PendingQueue) (hinv : QInv n q m m)
    (hrq : q.restore_queue = revRange m (qPtr n q))
    (hc : q.confirm k = some (xs, q1)) :
    xs = List.range' m k ∧ k ≤ qPtr n q - m ∧
    q1.restore_queue = revRange (m + k) (qPtr n q) ∧
    QInv n q1 (m + k) (m + k) := by
  obtain ⟨h1, h2, h3, h4, h5, h6, h7⟩ := hinv
  rw [PendingQueue.confirm, hrq, confirmAux_revRange (qPtr n q) k m h2] at hc
  by_cases hk : k ≤ qPtr n q - m
  · rw [if_pos hk] at hc
    dsimp only at hc
    injection hc with hc
    injection hc with hxs hq1
    refine ⟨hxs.symm, hk, ?_, ?_⟩
    · rw [← hq1]
    · rw [← hq1]
      have hqp : qPtr n { queue := q.queue, restore_queue := revRange (m + k) (qPtr n q), restore := q.restore } = qPtr n q := rfl
      refine ⟨le_refl _, ?_, ?_, fun _ => rfl, ?_, ?_, fun _ => rfl⟩
      · rw [hqp]; omega
      · rw [hqp]; exact h3
      · rw [hqp]; exact h5
      · rw [hqp, revRange_self, List.nil_append]
  · rw [if_neg hk] at hc
    exact absurd hc (by simp)

theorem revRange_single (a : Nat) : revRange a (a + 1) = [a] := by
  rw [revRange]
  have h : a + 1 - a = 1 := by omega
  rw [h, List.range'_one]
  rfl

/-- Effect of one `get` on a characterized state: a replay get yields the
rotation point `j` and advances it (wrapping back to `m` when the pass
completes); a fresh get yields the next producer item and leaves an
un-rotated deque with the flag cleared. -/
theorem QInv_get (n : Nat) (q : PendingQueue) (m j x : Nat) (q1 : PendingQueue)
    (hinv : QInv n q m j) (hget : q.get = some (x, q1)) :
    (q.restore = true ∧ q.restore_queue ≠ [] ∧ x = j ∧ q1.restore = true ∧
      q1.queue = q.queue ∧ q1.restore_queue ≠ [] ∧
      QInv n q1 m (if j + 1 = qPtr n q then m else j + 1)) ∨
    ((q.restore = false ∨ q.restore_queue = []) ∧ x = qPtr n q ∧ q1.restore = false ∧
      qPtr n q1 = qPtr n q + 1 ∧ QInv n q1 m m) := by
  obtain ⟨h1, h2, h3, h4, h5, h6, h7⟩ := hinv
  have hlenq : q.queue.length = n - qPtr n q := by
    rw [h5]
    simp
  rw [PendingQueue.get] at hget
  by_cases hres : q.restore = true
  · rw [if_pos hres] at hget
    match hlast : q.restore_queue.getLast? with
    | some item =>
      rw [hlast] at hget
      dsimp only at hget
      injection hget with hpair
      injection hpair with hx hq1
      have hne : q.restore_queue ≠ [] := by
        intro hnil
        rw [hnil] at hlast
        simp at hlast
      have hjlt : j < qPtr n q := by
        by_contra hcon
        have hje : j = qPtr n q := by omega
        have hjm := h4 hje
        have hlen0 := congrArg List.length h6
        rw [List.length_append, length_revRange, length_revRange] at hlen0
        have hz : q.restore_queue.length = 0 := by omega
        exact hne (List.eq_nil_of_length_eq_zero hz)
      have hitem : x = j := by
        rw [h6, List.getLast?_append_of_ne_nil _ (revRange_ne_nil j (qPtr n q) hjlt),
          getLast?_revRange j (qPtr n q) hjlt] at hlast
        injection hlast with hl
        rw [← hx, ← hl]
      rw [hx] at hq1
      left
      have hq1rq : q1.restore_queue = revRange m (j + 1) ++ revRange (j + 1) (qPtr n q) := by
        rw [← hq1]
        show x :: q.restore_queue.dropLast = _
        rw [hitem, h6, List.dropLast_append_of_ne_nil _ (revRange_ne_nil j (qPtr n q) hjlt),
          dropLast_revRange j (qPtr n q) hjlt, ← List.cons_append, cons_revRange m j h1]
      have hq1queue : q1.queue = q.queue := by rw [← hq1]
      have hq1res : q1.restore = true := by rw [← hq1]; exact hres
      have hqp1 : qPtr n q1 = qPtr n q := by
        rw [qPtr, qPtr, hq1queue]
      refine ⟨hres, hne, hitem, hq1res, hq1queue, ?_, ?_⟩
      · rw [← hq1]
        exact List.cons_ne_nil _ _
      · by_cases hwrap : j + 1 = qPtr n q
        · rw [if_pos hwrap]
          refine ⟨le_refl m, ?_, ?_, fun _ => rfl, ?_, ?_, fun _ => rfl⟩
          · rw [hqp1]; omega
          · rw [hqp1]; exact h3
          · rw [hqp1, hq1queue]
            exact h5
          · simp only [hqp1, hq1rq, hwrap, revRange_self, List.append_nil, List.nil_append]
        · rw [if_neg hwrap]
          refine ⟨by omega, ?_, ?_, ?_, ?_, ?_, ?_⟩
          · rw [hqp1]; omega
          · rw [hqp1]; exact h3
          · rw [hqp1]
            intro hh
            exact absurd hh hwrap
          · rw [hqp1, hq1queue]
            exact h5
          · rw [hqp1, hq1rq]
          · intro hf
            rw [hq1res] at hf
            simp at hf
    | none =>
      rw [hlast] at hget
      dsimp only at hget
      have hrqnil : q.restore_queue = [] := List.getLast?_eq_none_iff.mp hlast
      have hmj : m = j ∧ j = qPtr n q := by
        rw [h6] at hrqnil
        have hlen := congrArg List.length hrqnil
        rw [List.length_append, length_revRange, length_revRange] at hlen
        simp at hlen
        omega
      obtain ⟨hmje, hjq⟩ := hmj
      match hq : q.queue with
      | [] =>
        rw [hq] at hget
        exact absurd hget (by simp)
      | x0 :: rest =>
        rw [hq] at hget
        dsimp only at hget
        injection hget with hpair
        injection hpair with hx hq1
        have hlen1 : n - qPtr n q = rest.length + 1 := by
          have hc := congrArg List.length hq
          rw [hlenq] at hc
          simp at hc
          omega
        have hx0 : x0 = qPtr n q ∧ rest = List.range' (qPtr n q + 1) (n - qPtr n q - 1) := by
          rw [h5, hlen1, List.range'_succ] at hq
          injection hq with ha hb
          have hrl : rest.length = n - qPtr n q - 1 := by
            have hc := congrArg List.length hb
            simp at hc
            omega
          rw [hrl] at hb
          exact ⟨ha.symm, hb.symm⟩
        obtain ⟨hx0e, hreste⟩ := hx0
        right
        have hqp1 : qPtr n q1 = qPtr n q + 1 := by
          rw [qPtr, ← hq1]
          show n - rest.length = _
          omega
        have hmq : m = qPtr n q := by omega
        refine ⟨Or.inr (List.getLast?_eq_none_iff.mp hlast), by rw [← hx, hx0e], by rw [← hq1], hqp1, ?_⟩
        refine ⟨le_refl m, ?_, ?_, ?_, ?_, ?_, fun _ => rfl⟩
        · rw [hqp1]; omega
        · rw [hqp1]; omega
        · exact fun _ => rfl
        · rw [hqp1, ← hq1]
          show rest = _
          rw [hreste]
          congr 1
        · rw [hqp1, ← hq1]
          show [x0] = _
          simp only [revRange_self, List.nil_append]
          rw [hx0e, hmq, revRange_single]
  · rw [if_neg hres] at hget
    have hresf : q.restore = false := by
      cases hr : q.restore
      · rfl
      · exact absurd hr hres
    have hjm : j = m := h7 hresf
    match hq : q.queue with
    | [] =>
      rw [hq] at hget
      exact absurd hget (by simp)
    | x0 :: rest =>
      rw [hq] at hget
      dsimp only at hget
      injection hget with hpair
      injection hpair with hx hq1
      have hlen1 : n - qPtr n q = rest.length + 1 := by
        have hc := congrArg List.length hq
        rw [hlenq] at hc
        simp at hc
        omega
      have hx0 : x0 = qPtr n q ∧ rest = List.range' (qPtr n q + 1) (n - qPtr n q - 1) := by
        rw [h5, hlen1, List.range'_succ] at hq
        injection hq with ha hb
        have hrl : rest.length = n - qPtr n q - 1 := by
          have hc := congrArg List.length hb
          simp at hc
          omega
        rw [hrl] at hb
        exact ⟨ha.symm, hb.symm⟩
      obtain ⟨hx0e, hreste⟩ := hx0
      right
      have hqp1 : qPtr n q1 = qPtr n q + 1 := by
        rw [qPtr, ← hq1]
        show n - rest.length = _
        omega
      refine ⟨Or.inl hresf, by rw [← hx, hx0e], by rw [← hq1]; exact hresf, hqp1, ?_⟩
      refine ⟨le_refl m, ?_, ?_, ?_, ?_, ?_, fun _ => rfl⟩
      · rw [hqp1]; omega
      · rw [hqp1]; omega
      · exact fun _ => rfl
      · rw [hqp1, ← hq1]
        show rest = _
        rw [hreste]
        congr 1
      · rw [hqp1, ← hq1]
        show x0 :: q.restore_queue = _
        simp only [h6, hjm, revRange_self, List.nil_append, List.append_nil]
        rw [hx0e, cons_revRange m (qPtr n q) (by omega)]

/-- Driver-visible operations on a `PendingQueue`: `get`, `confirm k`, and
setting the restore flag (the driver only ever sets it; the queue itself
clears it when a replay pass exhausts the deque). -/
inductive QOp where
  | get
  | confirm (k : Nat)
  | setRestore
deriving Repr, DecidableEq

/-- States reachable from a fresh queue over producer `[0..n)` under the
driver protocol: any `get`, setting the flag at any time, and `confirm`
only when no replay pass is partially in progress (the driver confirms at
pass boundaries; a mid-pass confirm removes items out of order, see the
counterexample for the unamended claim). -/
inductive Reachable (n : Nat) : PendingQueue → Prop where
  | init : Reachable n (PendingQueue.initial n)
  | step_get {q : PendingQueue} {x : Nat} {q1 : PendingQueue} :
      Reachable n q → q.get = some (x, q1) → Reachable n q1
  | step_confirm {q : PendingQueue} {k : Nat} {xs : List Nat} {q1 : PendingQueue} :
      Reachable n q → Unrotated n q → q.confirm k = some (xs, q1) → Reachable n q1
  | step_flag {q : PendingQueue} :
      Reachable n q → Reachable n { q with restore := true }

/-- Iterated `get`, collecting the yielded items in order. -/
def getMany (q : PendingQueue) : Nat → Option (List Nat × PendingQueue)
  | 0 => some ([], q)
  | c + 1 =>
    match q.get with
    | none => none
    | some (x, q1) =>
      match getMany q1 c with
      | none => none
      | some (xs, q2) => some (x :: xs, q2)

theorem reachable_inv (n : Nat) (q : PendingQueue) (h : Reachable n q) :
    ∃ m j, QInv n q m j := by
  induction h with
  | init =>
    refine ⟨0, 0, le_refl 0, ?_, ?_, fun _ => rfl, ?_, ?_, fun _ => rfl⟩
    · omega
    · rw [qPtr]
      simp [PendingQueue.initial]
    · show List.range n = _
      rw [qPtr]
      simp [PendingQueue.initial]
      exact List.range_eq_range' n
    · show ([] : List Nat) = _
      rw [revRange_self, List.nil_append, qPtr]
      simp [PendingQueue.initial]
  | step_get hr hget ih =>
    obtain ⟨m, j, hinv⟩ := ih
    rcases QInv_get n _ m j _ _ hinv hget with ⟨_, _, _, _, _, _, hinv1⟩ | ⟨_, _, _, _, hinv1⟩
    · exact ⟨m, _, hinv1⟩
    · exact ⟨m, m, hinv1⟩
  | step_confirm hr hu hc ih =>
    obtain ⟨m, j, hinv⟩ := ih
    have hinv0 := QInv_of_unrotated n _ m j hinv hu
    have hrq := unrotated_rq n _ m j hinv hu
    obtain ⟨_, _, _, hinv1⟩ := QInv_confirm n _ m _ _ _ hinv0 hrq hc
    exact ⟨_, _, hinv1⟩
  | step_flag hr ih =>
    obtain ⟨m, j, hinv⟩ := ih
    exact ⟨m, j, QInv_set n _ m j hinv⟩

/-- A replay pass: from a restore-mode state whose pass is at rotation
point `j`, the next `qPtr - j` gets yield exactly `j, j+1, ..., qPtr - 1`
in producer order. -/
theorem getMany_replay (n : Nat) :
    ∀ c q m j, QInv n q m j → q.restore = true → q.restore_queue ≠ [] →
      c = qPtr n q - j →
      ∃ q2, getMany q c = some (List.range' j c, q2) := by
  intro c
  induction c with
  | zero =>
    intro q m j hinv hres hne hc
    obtain ⟨h1, h2, h3, h4, h5, h6, h7⟩ := hinv
    have hje : j = qPtr n q := by omega
    have hjm := h4 hje
    have hmq : m = qPtr n q := by omega
    rw [h6, hjm, hmq, revRange_self] at hne
    simp at hne
  | succ c ih =>
    intro q m j hinv hres hne hc
    have hjlt : j < qPtr n q := by
      obtain ⟨h1, h2, _⟩ := hinv
      omega
    match hget : q.get with
    | none =>
      rw [PendingQueue.get, if_pos hres] at hget
      match hlast : q.restore_queue.getLast? with
      | some item => rw [hlast] at hget; exact absurd hget (by simp)
      | none => exact absurd (List.getLast?_eq_none_iff.mp hlast) hne
    | some (x, q1) =>
      rcases QInv_get n q m j x q1 ⟨hinv.1, hinv.2.1, hinv.2.2.1, hinv.2.2.2.1,
          hinv.2.2.2.2.1, hinv.2.2.2.2.2.1, hinv.2.2.2.2.2.2⟩ hget with
        ⟨_, _, hx, hres1, hqueue1, hne1, hinv1⟩ | ⟨hcond, _, _, _, _⟩
      · have hqp1 : qPtr n q1 = qPtr n q := by rw [qPtr, qPtr, hqueue1]
        by_cases hwrap : j + 1 = qPtr n q
        · have hc0 : c = 0 := by omega
          subst hc0
          refine ⟨q1, ?_⟩
          simp only [getMany]
          rw [hget]
          dsimp only
          subst hx
          rw [List.range'_one]
        · rw [if_neg hwrap] at hinv1
          obtain ⟨q2, hq2⟩ := ih q1 m (j + 1) hinv1 hres1 hne1 (by omega)
          refine ⟨q2, ?_⟩
          simp only [getMany]
          rw [hget]
          dsimp only
          rw [hq2]
          dsimp only
          subst hx
          rw [List.range'_succ]
      · rcases hcond with hf | hrqn
        · rw [hres] at hf
          simp at hf
        · exact absurd hrqn hne

/-- Run a list of driver operations from a state, collecting the output of
each operation (the item of a `get`, the returned list of a `confirm`,
nothing for a flag set); `none` models a blocked or failing call. -/
def runQOps (q : PendingQueue) : List QOp → Option (PendingQueue × List (List Nat))
  | [] => some (q, [])
  | op :: ops =>
    match (match op with
           | QOp.get => (q.get).map (fun p => (p.2, [p.1]))
           | QOp.confirm k => (q.confirm k).map (fun p => (p.2, p.1))
           | QOp.setRestore => some ({ q with restore := true }, [])) with
    | none => none
    | some (q1, out) =>
      match runQOps q1 ops with
      | none => none
      | some (q2, outs) => some (q2, out :: outs)

/-- C2 counterexample: producer `[0, 1]`; both items are obtained and
neither confirmed; the flag is set and one replay `get` re-yields item 0;
`confirm 1` then returns `[1]`, although the oldest unconfirmed item is 0
(it was just re-yielded, and the trace shows it was never confirmed).  The
claim that `confirm k` always removes and returns the `k` oldest
unconfirmed items fails at this input. -/
theorem pending_queue_confirm_not_oldest :
    runQOps (PendingQueue.initial 2)
        [QOp.get, QOp.get, QOp.setRestore, QOp.get, QOp.confirm 1] =
      some (⟨[], [0], true⟩, [[0], [1], [], [0], [1]]) ∧
    ([1] : List Nat) ≠ [0] := by
  constructor
  · rfl
  · decide

/-- C2 amended: over any run of `get`, flag sets, and `confirm` restricted
to pass boundaries, the deque invariant holds; two consecutive `get`s yield
consecutive producer indices except when a replay pass has just completed,
in which case the second yields the oldest unconfirmed item again; from a
restore-mode pass boundary, one pass of `get`s re-yields exactly the
unconfirmed items in producer order; and a pass-boundary `confirm k`
removes and returns exactly the `k` oldest unconfirmed items in producer
order. -/
theorem pending_queue_replay_order (n : Nat) (q : PendingQueue) (h : Reachable n q) :
    (∃ m j, QInv n q m j) ∧
    (∀ x q1 y q2, q.get = some (x, q1) → q1.get = some (y, q2) →
      y = x + 1 ∨ (q1.restore = true ∧ y = qPtr n q1 - q1.restore_queue.length)) ∧
    (q.restore = true → Unrotated n q → q.restore_queue ≠ [] →
      ∃ q2, getMany q q.restore_queue.length =
        some (List.range' (qPtr n q - q.restore_queue.length) q.restore_queue.length, q2)) ∧
    (∀ k xs q1, Unrotated n q → q.confirm k = some (xs, q1) →
      xs = List.range' (qPtr n q - q.restore_queue.length) k ∧
      q1.restore_queue = revRange (qPtr n q - q.restore_queue.length + k) (qPtr n q)) := by
  obtain ⟨m, j, hinv⟩ := reachable_inv n q h
  have horder : ∀ x q1 y q2, q.get = some (x, q1) → q1.get = some (y, q2) →
      y = x + 1 ∨ (q1.restore = true ∧ y = qPtr n q1 - q1.restore_queue.length) := by
    intro x q1 y q2 hg1 hg2
    rcases QInv_get n q m j x q1 hinv hg1 with
      ⟨hres, hne, hx, hres1, hq1queue, hne1, hinv1⟩ | ⟨hcond, hx, hres1, hqp1, hinv1⟩
    · by_cases hwrap : j + 1 = qPtr n q
      · rw [if_pos hwrap] at hinv1
        right
        refine ⟨hres1, ?_⟩
        rcases QInv_get n q1 m m y q2 hinv1 hg2 with
          ⟨_, _, hy, _⟩ | ⟨hcond2, _⟩
        · have hlen1 := QInv_rq_length n q1 m m hinv1
          have hmle : m ≤ qPtr n q1 := hinv1.2.1
          rw [hy, hlen1]
          omega
        · rcases hcond2 with hf | hrqn
          · rw [hres1] at hf; simp at hf
          · exact absurd hrqn hne1
      · rw [if_neg hwrap] at hinv1
        rcases QInv_get n q1 m (j + 1) y q2 hinv1 hg2 with
          ⟨_, _, hy, _⟩ | ⟨hcond2, _⟩
        · left
          rw [hy, hx]
        · rcases hcond2 with hf | hrqn
          · rw [hres1] at hf; simp at hf
          · exact absurd hrqn hne1
    · rcases QInv_get n q1 m m y q2 hinv1 hg2 with
        ⟨hres2, _⟩ | ⟨_, hy, _⟩
      · rw [hres1] at hres2; simp at hres2
      · left
        rw [hy, hqp1, hx]
  refine ⟨⟨m, j, hinv⟩, horder, ?_, ?_⟩
  · intro hres hu hne
    have hinv0 := QInv_of_unrotated n q m j hinv hu
    have hlen := QInv_rq_length n q m m hinv0
    have hmle : m ≤ qPtr n q := hinv0.2.1
    obtain ⟨q2, hq2⟩ := getMany_replay n q.restore_queue.length q m m hinv0 hres hne
      (by omega)
    refine ⟨q2, ?_⟩
    rw [hq2]
    have hstart : qPtr n q - q.restore_queue.length = m := by omega
    rw [hstart]
  · intro k xs q1 hu hc
    have hinv0 := QInv_of_unrotated n q m j hinv hu
    have hrq := unrotated_rq n q m j hinv hu
    have hlen := QInv_rq_length n q m m hinv0
    have hmle : m ≤ qPtr n q := hinv0.2.1
    obtain ⟨hxs, hk, hq1rq, _⟩ := QInv_confirm n q m k xs q1 hinv0 hrq hc
    have hstart : qPtr n q - q.restore_queue.length = m := by omega
    rw [hstart]
    exact ⟨hxs, hq1rq⟩

/-- Witness for the amended C2 at a concrete input: producer `[0, 1]`, both
items obtained, the flag set; the state is reachable, and a pass-boundary
`confirm 1` returns `[0]`, the oldest unconfirmed item. -/
theorem pending_queue_replay_order_witness :
    PendingQueue.confirm ⟨[], [1, 0], true⟩ 1 = some ([0], ⟨[], [1], true⟩) ∧
    ([0] : List Nat) = List.range' (qPtr 2 ⟨[], [1, 0], true⟩ -
      (⟨[], [1, 0], true⟩ : PendingQueue).restore_queue.length) 1 := by
  have hreach : Reachable 2 (⟨[], [1, 0], true⟩ : PendingQueue) := by
    have h0 : Reachable 2 (PendingQueue.initial 2) := Reachable.init
    have h1 : Reachable 2 ⟨[1], [0], false⟩ := Reachable.step_get h0 rfl
    have h2 : Reachable 2 ⟨[], [1, 0], false⟩ := Reachable.step_get h1 rfl
    exact Reachable.step_flag h2
  have hmain := (pending_queue_replay_order 2 ⟨[], [1, 0], true⟩ hreach).2.2.2
    1 [0] ⟨[], [1], true⟩ rfl rfl
  exact ⟨rfl, hmain.1⟩

end Aestar
